import Mathlib

/-!
Shallow embedding of `src/graph.h`: a generic directed weighted graph
container `graph<VertexT, WeightT>` with a vertex registry (`Vertices`,
a vector) and an adjacency index (`adjList`, an `unordered_map` from a
source vertex to its vector of (destination, weight) pairs).

The embedding is faithful to the C++ source:
  * `std::vector` becomes `List`; `std::unordered_map` becomes an
    association list with unique keys (a valid refinement: the claims
    proved below never depend on the map's iteration order except where
    noted);
  * `unordered_map::at` on a missing key throws `std::out_of_range`, so
    the operations that call it (`getWeight`, `neighbors`) return
    `Except CppExc _`, with `CppExc.outOfRange` for the thrown exception;
  * `operator[]` default-constructs a missing entry, which `addEdge`
    relies on;
  * an output reference parameter (`WeightT& weight` in `getWeight`)
    becomes an explicit in/out value;
  * `dump(ostream& output)` writes through the global `cout`, not through
    `output`; the model carries both stream contents explicitly.
-/

namespace GraphModel

/-- The C++ exception that `unordered_map::at` throws on a missing key. -/
inductive CppExc where
  | outOfRange : CppExc
deriving DecidableEq, Repr

/-- State of `graph<VertexT, WeightT>`: the two private data members. -/
structure Graph (V W : Type) where
  adjList : List (V × List (V × W))
  Vertices : List V
deriving DecidableEq, Repr

variable {V W : Type} [DecidableEq V]

/-- The default-constructed graph (`graph() {}`): both containers empty. -/
def emptyGraph : Graph V W := ⟨[], []⟩

/-- `unordered_map` lookup (`find` / presence test): first entry with the
given key, if any. -/
def alistFind : List (V × α) → V → Option α
  | [], _ => none
  | (a, b) :: rest, k => if a = k then some b else alistFind rest k

/-- `unordered_map` store (`m[k] = x` semantics): overwrite the entry in
place when the key is present, otherwise add a new entry. -/
def alistSet : List (V × α) → V → α → List (V × α)
  | [], k, x => [(k, x)]
  | (a, b) :: rest, k, x =>
      if a = k then (a, x) :: rest else (a, b) :: alistSet rest k x

/-- The scan of `graph::_LookupVertex`: index of the first element equal to
`v` (via `operator==`), or `-1` when absent. -/
def lookupList : List V → V → Int
  | [], _ => -1
  | x :: rest, v =>
      if x = v then 0
      else if lookupList rest v = -1 then -1 else lookupList rest v + 1

/-- `graph::_LookupVertex v`: position of `v` in `Vertices`, or `-1`. -/
def lookupVertex (g : Graph V W) (v : V) : Int :=
  lookupList g.Vertices v

/-- `graph::NumVertices`: size of the `Vertices` vector. -/
def NumVertices (g : Graph V W) : Nat :=
  g.Vertices.length

/-- `graph::NumEdges`: sum of the adjacency entries' edge-list lengths,
recomputed from the current state on every call. -/
def NumEdges (g : Graph V W) : Nat :=
  (g.adjList.map (fun e => e.2.length)).sum

/-- `graph::addVertex`: scan `Vertices` for an equal element; if found
return `false` with no mutation, otherwise `push_back(v)` and return
`true`. The result pairs the C++ return value with the updated state. -/
def addVertex (g : Graph V W) (v : V) : Bool × Graph V W :=
  if v ∈ g.Vertices then (false, g)
  else (true, { g with Vertices := g.Vertices ++ [v] })

/-- The loop body of `graph::addEdge` on `adjList[from]`: overwrite the
`second` of the first pair whose `first` equals `to`, else `push_back` a
new `(to, weight)` pair. -/
def overwriteOrAppend : List (V × W) → V → W → List (V × W)
  | [], t, w => [(t, w)]
  | (a, b) :: rest, t, w =>
      if a = t then (a, w) :: rest else (a, b) :: overwriteOrAppend rest t w

/-- First match of the edge-scanning loops (`edge.first == to`): the stored
weight of the first record to `t`, if any. -/
def edgeFind : List (V × W) → V → Option W
  | [], _ => none
  | (a, b) :: rest, t => if a = t then some b else edgeFind rest t

/-- `graph::addEdge`: return `false` untouched when either endpoint fails
`_LookupVertex`; otherwise `adjList[from]` (creating the entry when
missing, as `operator[]` does) gets the overwrite-or-append update and the
call returns `true`. -/
def addEdge (g : Graph V W) (f t : V) (w : W) : Bool × Graph V W :=
  if lookupVertex g f < 0 ∨ lookupVertex g t < 0 then (false, g)
  else
    let cur := (alistFind g.adjList f).getD []
    (true, { g with adjList := alistSet g.adjList f (overwriteOrAppend cur t w) })

/-- `graph::getWeight`: `weight` is the incoming value of the reference
parameter; the result is the C++ return value paired with the parameter's
final value, or the exception `adjList.at(from)` throws when `from` has no
adjacency entry. -/
def getWeight (g : Graph V W) (f t : V) (weight : W) : Except CppExc (Bool × W) :=
  if lookupVertex g f < 0 ∨ lookupVertex g t < 0 then Except.ok (false, weight)
  else
    match alistFind g.adjList f with
    | none => Except.error CppExc.outOfRange
    | some targetVertex =>
        match edgeFind targetVertex t with
        | some w => Except.ok (true, w)
        | none => Except.ok (false, weight)

/-- `graph::neighbors`: empty `set<VertexT>` when `v` fails
`_LookupVertex`; otherwise the destinations of `adjList.at(v)` collected
into a set — or the exception `at` throws when `v` has no adjacency
entry. -/
def neighbors (g : Graph V W) (v : V) : Except CppExc (Finset V) :=
  if lookupVertex g v < 0 then Except.ok ∅
  else
    match alistFind g.adjList v with
    | none => Except.error CppExc.outOfRange
    | some targetVector => Except.ok (targetVector.map Prod.fst).toFinset

/-- `graph::getVertices`: returns the `Vertices` vector by value. -/
def getVertices (g : Graph V W) : List V :=
  g.Vertices

/-- One line of `graph::dump` for one adjacency entry: the source, a
colon, then each edge as `(source,dest,weight) `, then `endl`. -/
def dumpLine [ToString V] [ToString W] (src : V) (edges : List (V × W)) : String :=
  toString src ++ ": " ++
    String.join (edges.map (fun e =>
      "(" ++ toString src ++ "," ++ toString e.1 ++ "," ++ toString e.2 ++ ") ")) ++
    "\n"

/-- All text `graph::dump` emits: one `dumpLine` per adjacency entry. -/
def dumpText [ToString V] [ToString W] (g : Graph V W) : String :=
  String.join (g.adjList.map (fun e => dumpLine e.1 e.2))

/-- `graph::dump output`: the model carries the contents of the sink
passed as `output` and of the global `cout` stream; the C++ body streams
everything to `cout`, so the sink comes back unchanged. -/
def dump [ToString V] [ToString W] (g : Graph V W) (output : String)
    (stdoutText : String) : String × String :=
  (output, stdoutText ++ dumpText g)

/-- One container operation, for reachability over call sequences. -/
inductive Op (V W : Type) where
  | addV : V → Op V W
  | addE : V → V → W → Op V W

/-- Apply one mutating call, keeping the resulting state. -/
def applyOp (g : Graph V W) : Op V W → Graph V W
  | .addV v => (addVertex g v).2
  | .addE f t w => (addEdge g f t w).2

/-- Run a call sequence from a starting state. -/
def run (g : Graph V W) : List (Op V W) → Graph V W
  | [] => g
  | op :: rest => run (applyOp g op) rest

/-- Concrete states used by the closed evaluation theorems below. -/
def gA : Graph Nat Nat := (addVertex emptyGraph 0).2

def gAB : Graph Nat Nat := (addVertex gA 1).2

def gEdge : Graph Nat Nat := (addEdge gAB 0 1 5).2

/-! ### Lemmas about `_LookupVertex` -/

theorem lookupList_sign (l : List V) (v : V) :
    lookupList l v = -1 ∨ 0 ≤ lookupList l v := by
  induction l with
  | nil => exact Or.inl rfl
  | cons x rest ih =>
      by_cases hx : x = v
      · right; simp [lookupList, hx]
      · rcases ih with h | h
        · left; simp [lookupList, hx, h]
        · right
          have hne : lookupList rest v ≠ -1 := by omega
          simp only [lookupList, if_neg hx, if_neg hne]
          omega

theorem lookupList_eq_neg_one_iff (l : List V) (v : V) :
    lookupList l v = -1 ↔ v ∉ l := by
  induction l with
  | nil => simp [lookupList]
  | cons x rest ih =>
      by_cases hx : x = v
      · simp [lookupList, hx]
      · by_cases hr : lookupList rest v = -1
        · have hnr := ih.mp hr
          simp only [lookupList, if_neg hx, if_pos hr, List.mem_cons]
          constructor
          · intro _
            rintro (h' | h')
            · exact hx h'.symm
            · exact hnr h'
          · intro _; trivial
        · rcases lookupList_sign rest v with h | h
          · exact absurd h hr
          · have hv : v ∈ rest := by
              by_contra hm
              exact hr (ih.mpr hm)
            simp only [lookupList, if_neg hx, if_neg hr, List.mem_cons]
            constructor
            · intro h'; omega
            · intro h'; exact absurd (Or.inr hv) h'

theorem lookupList_lt_zero_iff (l : List V) (v : V) :
    lookupList l v < 0 ↔ v ∉ l := by
  constructor
  · intro h
    rcases lookupList_sign l v with h1 | h1
    · exact (lookupList_eq_neg_one_iff l v).mp h1
    · omega
  · intro h
    have := (lookupList_eq_neg_one_iff l v).mpr h
    omega

theorem lookupVertex_lt_zero_iff (g : Graph V W) (v : V) :
    lookupVertex g v < 0 ↔ v ∉ g.Vertices :=
  lookupList_lt_zero_iff g.Vertices v

/-! ### Lemmas about the association-list map -/

theorem alistFind_alistSet (l : List (V × α)) (k : V) (x : α) (s : V) :
    alistFind (alistSet l k x) s = if s = k then some x else alistFind l s := by
  induction l with
  | nil =>
      by_cases h : s = k
      · subst h; simp [alistSet, alistFind]
      · have h' : ¬k = s := fun he => h he.symm
        simp [alistSet, alistFind, h, h']
  | cons e rest ih =>
      obtain ⟨a, b⟩ := e
      by_cases hak : a = k
      · subst hak
        by_cases hsa : s = a
        · subst hsa; simp [alistSet, alistFind]
        · have hsa' : ¬a = s := fun he => hsa he.symm
          simp [alistSet, alistFind, hsa, hsa']
      · by_cases has : a = s
        · subst has
          have hak' : ¬a = k := hak
          simp [alistSet, alistFind, hak']
        · simp [alistSet, alistFind, hak, has, ih]

theorem mem_alistSet (l : List (V × α)) (k : V) (x : α) (e : V × α)
    (h : e ∈ alistSet l k x) : e ∈ l ∨ e = (k, x) := by
  induction l with
  | nil => simpa [alistSet] using h
  | cons e' rest ih =>
      obtain ⟨a, b⟩ := e'
      by_cases hak : a = k
      · subst hak
        rcases (by simpa [alistSet] using h : e = (a, x) ∨ e ∈ rest) with h' | h'
        · exact Or.inr h'
        · exact Or.inl (List.mem_cons_of_mem _ h')
      · rcases (by simpa [alistSet, hak] using h : e = (a, b) ∨ e ∈ alistSet rest k x)
          with h' | h'
        · exact Or.inl (by simp [h'])
        · rcases ih h' with h'' | h''
          · exact Or.inl (List.mem_cons_of_mem _ h'')
          · exact Or.inr h''

theorem alistFind_mem (l : List (V × α)) (k : V) (c : α)
    (h : alistFind l k = some c) : (k, c) ∈ l := by
  induction l with
  | nil => simp [alistFind] at h
  | cons e rest ih =>
      obtain ⟨a, b⟩ := e
      by_cases hak : a = k
      · subst hak
        simp [alistFind] at h
        subst h
        exact List.mem_cons_self _ _
      · simp only [alistFind, if_neg hak] at h
        exact List.mem_cons_of_mem _ (ih h)

theorem sumLens_alistSet (l : List (V × List α)) (k : V) (x v : List α)
    (h : alistFind l k = some v) :
    ((alistSet l k x).map (fun e => e.2.length)).sum + v.length =
      (l.map (fun e => e.2.length)).sum + x.length := by
  induction l with
  | nil => simp [alistFind] at h
  | cons e rest ih =>
      obtain ⟨a, b⟩ := e
      by_cases hak : a = k
      · subst hak
        simp [alistFind] at h
        subst h
        simp [alistSet]
        omega
      · simp only [alistFind, if_neg hak] at h
        simp only [alistSet, if_neg hak, List.map_cons, List.sum_cons]
        have := ih h
        omega

/-! ### Lemmas about edge lists -/

theorem edgeFind_overwriteOrAppend_self (l : List (V × W)) (t : V) (w : W) :
    edgeFind (overwriteOrAppend l t w) t = some w := by
  induction l with
  | nil => simp [overwriteOrAppend, edgeFind]
  | cons e rest ih =>
      obtain ⟨a, b⟩ := e
      by_cases hat : a = t
      · simp [overwriteOrAppend, edgeFind, hat]
      · simp [overwriteOrAppend, edgeFind, hat, ih]

theorem overwriteOrAppend_length (l : List (V × W)) (t : V) (w w0 : W)
    (h : edgeFind l t = some w0) :
    (overwriteOrAppend l t w).length = l.length := by
  induction l with
  | nil => simp [edgeFind] at h
  | cons e rest ih =>
      obtain ⟨a, b⟩ := e
      by_cases hat : a = t
      · simp [overwriteOrAppend, hat]
      · simp only [edgeFind, if_neg hat] at h
        simp [overwriteOrAppend, hat, ih h]

theorem overwriteOrAppend_ne_nil (l : List (V × W)) (t : V) (w : W) :
    overwriteOrAppend l t w ≠ [] := by
  cases l with
  | nil => simp [overwriteOrAppend]
  | cons e rest =>
      obtain ⟨a, b⟩ := e
      by_cases hat : a = t <;> simp [overwriteOrAppend, hat]

theorem mem_overwriteOrAppend (l : List (V × W)) (t : V) (w : W) (p : V × W)
    (h : p ∈ overwriteOrAppend l t w) : p ∈ l ∨ p = (t, w) := by
  induction l with
  | nil => simpa [overwriteOrAppend] using h
  | cons e rest ih =>
      obtain ⟨a, b⟩ := e
      by_cases hat : a = t
      · subst hat
        rcases (by simpa [overwriteOrAppend] using h : p = (a, w) ∨ p ∈ rest) with h' | h'
        · exact Or.inr h'
        · exact Or.inl (List.mem_cons_of_mem _ h')
      · rcases (by simpa [overwriteOrAppend, hat] using h :
            p = (a, b) ∨ p ∈ overwriteOrAppend rest t w) with h' | h'
        · exact Or.inl (by simp [h'])
        · rcases ih h' with h'' | h''
          · exact Or.inl (List.mem_cons_of_mem _ h'')
          · exact Or.inr h''

theorem edgeFind_eq_none_iff (l : List (V × W)) (t : V) :
    edgeFind l t = none ↔ t ∉ l.map Prod.fst := by
  induction l with
  | nil => simp [edgeFind]
  | cons e rest ih =>
      obtain ⟨a, b⟩ := e
      by_cases hat : a = t
      · simp [edgeFind, hat]
      · have hat' : ¬t = a := fun he => hat he.symm
        simp [edgeFind, hat, hat', ih]

theorem overwriteOrAppend_map_fst_of_found (l : List (V × W)) (t : V) (w w0 : W)
    (h : edgeFind l t = some w0) :
    (overwriteOrAppend l t w).map Prod.fst = l.map Prod.fst := by
  induction l with
  | nil => simp [edgeFind] at h
  | cons e rest ih =>
      obtain ⟨a, b⟩ := e
      by_cases hat : a = t
      · simp [overwriteOrAppend, hat]
      · simp only [edgeFind, if_neg hat] at h
        simp [overwriteOrAppend, hat, ih h]

theorem overwriteOrAppend_map_fst_of_none (l : List (V × W)) (t : V) (w : W)
    (h : edgeFind l t = none) :
    (overwriteOrAppend l t w).map Prod.fst = l.map Prod.fst ++ [t] := by
  induction l with
  | nil => simp [overwriteOrAppend]
  | cons e rest ih =>
      obtain ⟨a, b⟩ := e
      by_cases hat : a = t
      · simp [edgeFind, hat] at h
      · simp only [edgeFind, if_neg hat] at h
        simp [overwriteOrAppend, hat, ih h]

theorem overwriteOrAppend_nodup_fst (l : List (V × W)) (t : V) (w : W)
    (h : (l.map Prod.fst).Nodup) :
    ((overwriteOrAppend l t w).map Prod.fst).Nodup := by
  cases hf : edgeFind l t with
  | none =>
      rw [overwriteOrAppend_map_fst_of_none l t w hf]
      have ht : t ∉ l.map Prod.fst := (edgeFind_eq_none_iff l t).mp hf
      simp [List.nodup_append, h, ht]
  | some w0 =>
      rw [overwriteOrAppend_map_fst_of_found l t w w0 hf]
      exact h

/-! ### Behaviour of the container operations -/

theorem lookupVertex_not_lt_zero (g : Graph V W) (v : V) (h : v ∈ g.Vertices) :
    ¬lookupVertex g v < 0 :=
  fun hc => (lookupVertex_lt_zero_iff g v).mp hc h

/-- The state `addEdge` leaves behind once both endpoints validated: the
entry for `f` (created empty by `operator[]` when missing) gets the
overwrite-or-append update. -/
def addEdgeState (g : Graph V W) (f t : V) (w : W) : Graph V W :=
  { g with adjList := alistSet g.adjList f (overwriteOrAppend ((alistFind g.adjList f).getD []) t w) }

theorem addEdge_of_mem (g : Graph V W) (f t : V) (w : W)
    (hf : f ∈ g.Vertices) (ht : t ∈ g.Vertices) :
    addEdge g f t w = (true, addEdgeState g f t w) := by
  have hcond : ¬(lookupVertex g f < 0 ∨ lookupVertex g t < 0) := by
    rintro (hc | hc)
    · exact lookupVertex_not_lt_zero g f hf hc
    · exact lookupVertex_not_lt_zero g t ht hc
  simp [addEdge, addEdgeState, hcond]

theorem addEdge_snd_of_mem (g : Graph V W) (f t : V) (w : W)
    (hf : f ∈ g.Vertices) (ht : t ∈ g.Vertices) :
    (addEdge g f t w).2 = addEdgeState g f t w := by
  rw [addEdge_of_mem g f t w hf ht]

theorem addEdge_vertices (g : Graph V W) (f t : V) (w : W) :
    (addEdge g f t w).2.Vertices = g.Vertices := by
  by_cases h : lookupVertex g f < 0 ∨ lookupVertex g t < 0 <;>
    simp [addEdge, addEdgeState, h]

theorem addEdge_find_self (g : Graph V W) (f t : V) (w : W)
    (hf : f ∈ g.Vertices) (ht : t ∈ g.Vertices) :
    alistFind (addEdge g f t w).2.adjList f =
      some (overwriteOrAppend ((alistFind g.adjList f).getD []) t w) := by
  rw [addEdge_snd_of_mem g f t w hf ht]
  simp only [addEdgeState]
  rw [alistFind_alistSet]
  simp

theorem getWeight_addEdge (g : Graph V W) (f t : V) (w w0 : W)
    (hf : f ∈ g.Vertices) (ht : t ∈ g.Vertices) :
    getWeight (addEdge g f t w).2 f t w0 = Except.ok (true, w) := by
  have hf' := lookupVertex_not_lt_zero g f hf
  have ht' := lookupVertex_not_lt_zero g t ht
  have hfind := addEdge_find_self g f t w hf ht
  have hV := addEdge_vertices g f t w
  simp only [getWeight, lookupVertex, hV, hfind]
  rw [if_neg ?_]
  · rw [edgeFind_overwriteOrAppend_self]
  · rintro (hc | hc)
    · exact hf' hc
    · exact ht' hc

theorem numEdges_addEdge_existing (g : Graph V W) (f t : V) (w w0 : W)
    (hf : f ∈ g.Vertices) (ht : t ∈ g.Vertices)
    (l : List (V × W)) (hfd : alistFind g.adjList f = some l)
    (hed : edgeFind l t = some w0) :
    NumEdges (addEdge g f t w).2 = NumEdges g := by
  rw [addEdge_snd_of_mem g f t w hf ht]
  simp only [NumEdges, addEdgeState]
  rw [hfd]
  simp only [Option.getD_some]
  have hsum := sumLens_alistSet g.adjList f (overwriteOrAppend l t w) l hfd
  have hlen := overwriteOrAppend_length l t w w0 hed
  omega

/-! ### The claims -/

/-- C4: `addVertex` on a fresh vertex returns `true` and appends it to the
registry, growing `NumVertices` by one; on an already registered vertex it
returns `false` and leaves the whole state unchanged, so `NumVertices` is
unchanged. -/
theorem C4_addVertex_spec (g : Graph V W) (v : V) :
    (v ∉ g.Vertices →
      (addVertex g v).1 = true ∧
      (addVertex g v).2.Vertices = g.Vertices ++ [v] ∧
      NumVertices (addVertex g v).2 = NumVertices g + 1) ∧
    (v ∈ g.Vertices → addVertex g v = (false, g)) := by
  constructor
  · intro h
    simp [addVertex, h, NumVertices]
  · intro h
    simp [addVertex, h]

/-- Witness for C4 at concrete inputs: adding `0` to the empty graph
succeeds and grows the registry; adding `0` again to `gA` fails and leaves
the state unchanged. -/
theorem C4_addVertex_spec_witness :
    ((addVertex (emptyGraph : Graph Nat Nat) 0).1 = true ∧
      (addVertex (emptyGraph : Graph Nat Nat) 0).2.Vertices =
        (emptyGraph : Graph Nat Nat).Vertices ++ [0] ∧
      NumVertices (addVertex (emptyGraph : Graph Nat Nat) 0).2 =
        NumVertices (emptyGraph : Graph Nat Nat) + 1) ∧
    addVertex gA 0 = (false, gA) :=
  ⟨(C4_addVertex_spec emptyGraph 0).1 (by decide),
    (C4_addVertex_spec gA 0).2 (by decide)⟩

/-- C5: a second `addEdge` on the same (from, to) pair overwrites the
stored weight in place — `NumEdges` keeps the value it had after the first
call and `getWeight` then reports the second weight. -/
theorem C5_addEdge_overwrite (g : Graph V W) (f t : V) (w1 w2 w0 : W)
    (hf : f ∈ g.Vertices) (ht : t ∈ g.Vertices) :
    NumEdges (addEdge (addEdge g f t w1).2 f t w2).2 =
      NumEdges (addEdge g f t w1).2 ∧
    getWeight (addEdge (addEdge g f t w1).2 f t w2).2 f t w0 =
      Except.ok (true, w2) := by
  have hV := addEdge_vertices g f t w1
  have hf1 : f ∈ (addEdge g f t w1).2.Vertices := by rw [hV]; exact hf
  have ht1 : t ∈ (addEdge g f t w1).2.Vertices := by rw [hV]; exact ht
  constructor
  · exact numEdges_addEdge_existing _ f t w2 w1 hf1 ht1 _
      (addEdge_find_self g f t w1 hf ht)
      (edgeFind_overwriteOrAppend_self _ t w1)
  · exact getWeight_addEdge _ f t w2 w0 hf1 ht1

/-- Witness for C5 at concrete inputs: re-adding the edge 0→1 of `gAB`
with weight 7 after weight 3 keeps `NumEdges` at its post-first-call value
and `getWeight` reports 7. -/
theorem C5_addEdge_overwrite_witness :
    NumEdges (addEdge (addEdge gAB 0 1 3).2 0 1 7).2 =
      NumEdges (addEdge gAB 0 1 3).2 ∧
    getWeight (addEdge (addEdge gAB 0 1 3).2 0 1 7).2 0 1 99 =
      Except.ok (true, 7) :=
  C5_addEdge_overwrite gAB 0 1 3 7 99 (by decide) (by decide)

/-- C6: `addEdge` with an unregistered endpoint returns `false` and leaves
the state — hence `NumEdges`, `NumVertices` and the adjacency index —
unchanged. -/
theorem C6_addEdge_unknown_vertex (g : Graph V W) (f t : V) (w : W)
    (h : f ∉ g.Vertices ∨ t ∉ g.Vertices) :
    addEdge g f t w = (false, g) ∧
    NumEdges (addEdge g f t w).2 = NumEdges g ∧
    NumVertices (addEdge g f t w).2 = NumVertices g := by
  have hcond : lookupVertex g f < 0 ∨ lookupVertex g t < 0 := by
    rcases h with h | h
    · exact Or.inl ((lookupVertex_lt_zero_iff g f).mpr h)
    · exact Or.inr ((lookupVertex_lt_zero_iff g t).mpr h)
  have he : addEdge g f t w = (false, g) := by simp [addEdge, hcond]
  exact ⟨he, by rw [he], by rw [he]⟩

/-- Witness for C6 at concrete inputs: vertex 5 is not registered in
`gAB`, so `addEdge 0 5` fails and changes nothing. -/
theorem C6_addEdge_unknown_vertex_witness :
    addEdge gAB 0 5 7 = (false, gAB) ∧
    NumEdges (addEdge gAB 0 5 7).2 = NumEdges gAB ∧
    NumVertices (addEdge gAB 0 5 7).2 = NumVertices gAB :=
  C6_addEdge_unknown_vertex gAB 0 5 7 (Or.inr (by decide))

/-- C7: once both endpoints are registered (self-loops included),
`addEdge` returns `true` unconditionally and an immediate `getWeight` on
that pair reports the just-stored weight with `found = true`. -/
theorem C7_addEdge_registered (g : Graph V W) (f t : V) (w w0 : W)
    (hf : f ∈ g.Vertices) (ht : t ∈ g.Vertices) :
    (addEdge g f t w).1 = true ∧
    getWeight (addEdge g f t w).2 f t w0 = Except.ok (true, w) := by
  constructor
  · rw [addEdge_of_mem g f t w hf ht]
  · exact getWeight_addEdge g f t w w0 hf ht

/-- Witness for C7 at a concrete self-loop: `addEdge 0 0 1` on `gA`
succeeds and `getWeight 0 0` then reports weight 1. -/
theorem C7_addEdge_registered_witness :
    (addEdge gA 0 0 1).1 = true ∧
    getWeight (addEdge gA 0 0 1).2 0 0 99 = Except.ok (true, 1) :=
  C7_addEdge_registered gA 0 0 1 99 (by decide) (by decide)

/-- C1 fails on the code: in `gAB` the vertices 0 and 1 are registered and
no edge exists at all, yet `getWeight 0 1` does not return `false` — it
reaches `adjList.at(from)` on a source with no adjacency entry, which
throws `std::out_of_range` instead of completing as an ordinary return. -/
theorem C1_getWeight_throws_out_of_range :
    (0 ∈ gAB.Vertices ∧ 1 ∈ gAB.Vertices ∧ NumEdges gAB = 0) ∧
    getWeight gAB 0 1 99 = Except.error CppExc.outOfRange :=
  ⟨by decide, rfl⟩

/-- C2 fails on the code: vertex 0 is registered in `gA` with no outgoing
edges, yet `neighbors 0` does not return the empty set — `adjList.at(v)`
throws `std::out_of_range` because 0 has no adjacency entry. -/
theorem C2_neighbors_throws_out_of_range :
    (0 ∈ gA.Vertices ∧ NumEdges gA = 0) ∧
    neighbors gA 0 = Except.error CppExc.outOfRange :=
  ⟨by decide, rfl⟩

/-- C3 fails on the code: `dump` streams every character to the global
`cout`, never to its `output` parameter, so a sink other than `cout` comes
back unchanged while the formatted lines appear on `cout`. -/
theorem C3_dump_ignores_sink :
    dump gEdge ("sinkContent") ("coutContent") =
      (("sinkContent"), ("coutContent" ++ dumpText gEdge)) ∧
    dumpText gEdge = ("0: (0,1,5) \n") :=
  ⟨rfl, rfl⟩

/-- The caller's view after `getVertices`: the graph it queried and the
copy of the registry the call handed back (C++ returns `this->Vertices`
by value, so the copy is storage the caller owns). -/
structure CallerView (V W : Type) where
  g : Graph V W
  buf : List V

/-- Calling `getVertices` hands the caller an independent copy. -/
def callGetVertices (g : Graph V W) : CallerView V W :=
  ⟨g, getVertices g⟩

/-- The caller mutates its copy arbitrarily; the graph is not touched. -/
def mutateBuf (s : CallerView V W) (m : List V → List V) : CallerView V W :=
  ⟨s.g, m s.buf⟩

omit [DecidableEq V] in
/-- C9: `getVertices` returns the registry in insertion order as a copy;
after the caller mutates that copy in any way, the graph state — and hence
every subsequent `getVertices` call and every other operation — is exactly
as if the mutation had not happened. -/
theorem C9_getVertices_independent_copy (g : Graph V W) (m : List V → List V) :
    (callGetVertices g).buf = g.Vertices ∧
    (mutateBuf (callGetVertices g) m).g = g ∧
    getVertices (mutateBuf (callGetVertices g) m).g = getVertices g :=
  ⟨rfl, rfl, rfl⟩

/-! ### Reachable states: the structural invariants -/

/-- The three structural invariants of claim C8: the registry holds no
duplicates; every adjacency key and every destination in any edge record
is registered; and each source's edge list holds at most one record per
destination. -/
def Invariant (g : Graph V W) : Prop :=
  g.Vertices.Nodup ∧
  (∀ e ∈ g.adjList, e.1 ∈ g.Vertices ∧ ∀ p ∈ e.2, p.1 ∈ g.Vertices) ∧
  (∀ e ∈ g.adjList, (e.2.map Prod.fst).Nodup)

omit [DecidableEq V] in
theorem invariant_emptyGraph : Invariant (emptyGraph : Graph V W) := by
  refine ⟨List.nodup_nil, ?_, ?_⟩ <;> intro e he <;>
    simp [emptyGraph] at he

theorem invariant_addVertex (g : Graph V W) (v : V) (h : Invariant g) :
    Invariant (addVertex g v).2 := by
  by_cases hv : v ∈ g.Vertices
  · simpa [addVertex, hv] using h
  · obtain ⟨h1, h2, h3⟩ := h
    simp only [addVertex, if_neg hv]
    refine ⟨?_, ?_, ?_⟩
    · simp [List.nodup_append, h1, hv]
    · intro e he
      obtain ⟨he1, he2⟩ := h2 e he
      exact ⟨List.mem_append_left _ he1,
        fun p hp => List.mem_append_left _ (he2 p hp)⟩
    · exact h3

theorem invariant_addEdge (g : Graph V W) (f t : V) (w : W) (h : Invariant g) :
    Invariant (addEdge g f t w).2 := by
  by_cases hc : lookupVertex g f < 0 ∨ lookupVertex g t < 0
  · simpa [addEdge, hc] using h
  · have hf : f ∈ g.Vertices := by
      by_contra hm
      exact hc (Or.inl ((lookupVertex_lt_zero_iff g f).mpr hm))
    have ht : t ∈ g.Vertices := by
      by_contra hm
      exact hc (Or.inr ((lookupVertex_lt_zero_iff g t).mpr hm))
    rw [addEdge_snd_of_mem g f t w hf ht]
    obtain ⟨h1, h2, h3⟩ := h
    have hcur_mem : ∀ p ∈ (alistFind g.adjList f).getD [], p.1 ∈ g.Vertices := by
      cases hfd : alistFind g.adjList f with
      | none => simp
      | some c =>
          have := (h2 (f, c) (alistFind_mem _ _ _ hfd)).2
          simpa using this
    have hcur_nodup : (((alistFind g.adjList f).getD []).map Prod.fst).Nodup := by
      cases hfd : alistFind g.adjList f with
      | none => simp
      | some c =>
          have := h3 (f, c) (alistFind_mem _ _ _ hfd)
          simpa using this
    refine ⟨h1, ?_, ?_⟩
    · intro e he
      rcases mem_alistSet _ _ _ _ he with h' | h'
      · exact h2 e h'
      · subst h'
        refine ⟨hf, fun p hp => ?_⟩
        rcases mem_overwriteOrAppend _ _ _ _ hp with hp' | hp'
        · exact hcur_mem p hp'
        · rw [hp']; exact ht
    · intro e he
      rcases mem_alistSet _ _ _ _ he with h' | h'
      · exact h3 e h'
      · subst h'
        exact overwriteOrAppend_nodup_fst _ t w hcur_nodup

theorem invariant_applyOp (g : Graph V W) (op : Op V W) (h : Invariant g) :
    Invariant (applyOp g op) := by
  cases op with
  | addV v => exact invariant_addVertex g v h
  | addE f t w => exact invariant_addEdge g f t w h

theorem invariant_run (ops : List (Op V W)) (g : Graph V W) (h : Invariant g) :
    Invariant (run g ops) := by
  induction ops generalizing g with
  | nil => exact h
  | cons op rest ih => exact ih _ (invariant_applyOp g op h)

/-- C8: every state reachable from the empty graph by a sequence of
`addVertex` / `addEdge` calls satisfies all three structural invariants:
no duplicate registry entries, every adjacency key and edge destination
registered, and at most one edge record per (source, destination) pair. -/
theorem C8_reachable_invariant (ops : List (Op V W)) :
    Invariant (run (emptyGraph : Graph V W) ops) :=
  invariant_run ops emptyGraph invariant_emptyGraph

/-! ### Reachable states: adjacency entries and successful addEdge calls -/

/-- Presence of a key in the adjacency map. -/
def isKey (l : List (V × α)) (k : V) : Bool :=
  (alistFind l k).isSome

/-- Some call of the sequence, executed from `g`, is an `addEdge` with
source `s` that returned `true`. -/
def edgeSuccessFrom (g : Graph V W) (s : V) : List (Op V W) → Prop
  | [] => False
  | Op.addV v :: rest => edgeSuccessFrom (addVertex g v).2 s rest
  | Op.addE f t w :: rest =>
      ((addEdge g f t w).1 = true ∧ s = f) ∨
        edgeSuccessFrom (addEdge g f t w).2 s rest

theorem isKey_alistSet (l : List (V × α)) (k : V) (x : α) (s : V) :
    isKey (alistSet l k x) s = true ↔ (isKey l s = true ∨ s = k) := by
  simp only [isKey, alistFind_alistSet]
  by_cases h : s = k <;> simp [h]

theorem addVertex_adjList (g : Graph V W) (v : V) :
    (addVertex g v).2.adjList = g.adjList := by
  by_cases hv : v ∈ g.Vertices <;> simp [addVertex, hv]

theorem isKey_run (ops : List (Op V W)) (g : Graph V W) (s : V) :
    isKey (run g ops).adjList s = true ↔
      (isKey g.adjList s = true ∨ edgeSuccessFrom g s ops) := by
  induction ops generalizing g with
  | nil => simp [run, edgeSuccessFrom]
  | cons op rest ih =>
      cases op with
      | addV v =>
          simp only [run, applyOp, edgeSuccessFrom]
          rw [ih, addVertex_adjList]
      | addE f t w =>
          simp only [run, applyOp, edgeSuccessFrom]
          rw [ih]
          by_cases hc : lookupVertex g f < 0 ∨ lookupVertex g t < 0
          · have he : addEdge g f t w = (false, g) := by simp [addEdge, hc]
            rw [he]
            simp
          · have hf : f ∈ g.Vertices := by
              by_contra hm
              exact hc (Or.inl ((lookupVertex_lt_zero_iff g f).mpr hm))
            have ht : t ∈ g.Vertices := by
              by_contra hm
              exact hc (Or.inr ((lookupVertex_lt_zero_iff g t).mpr hm))
            rw [addEdge_of_mem g f t w hf ht]
            simp only [addEdgeState, isKey_alistSet]
            constructor
            · rintro ((hk | hk) | hk)
              · exact Or.inl hk
              · exact Or.inr (Or.inl ⟨trivial, hk⟩)
              · exact Or.inr (Or.inr hk)
            · rintro (hk | (⟨-, hk⟩ | hk))
              · exact Or.inl (Or.inl hk)
              · exact Or.inl (Or.inr hk)
              · exact Or.inr hk

theorem nonempty_entries_run (ops : List (Op V W)) (g : Graph V W)
    (h : ∀ e ∈ g.adjList, e.2 ≠ []) :
    ∀ e ∈ (run g ops).adjList, e.2 ≠ [] := by
  induction ops generalizing g with
  | nil => exact h
  | cons op rest ih =>
      refine ih (applyOp g op) ?_
      cases op with
      | addV v =>
          rw [applyOp, addVertex_adjList]
          exact h
      | addE f t w =>
          by_cases hc : lookupVertex g f < 0 ∨ lookupVertex g t < 0
          · simpa [applyOp, addEdge, hc] using h
          · have hf : f ∈ g.Vertices := by
              by_contra hm
              exact hc (Or.inl ((lookupVertex_lt_zero_iff g f).mpr hm))
            have ht : t ∈ g.Vertices := by
              by_contra hm
              exact hc (Or.inr ((lookupVertex_lt_zero_iff g t).mpr hm))
            rw [applyOp, addEdge_snd_of_mem g f t w hf ht]
            intro e he
            rcases mem_alistSet _ _ _ _ he with h' | h'
            · exact h e h'
            · rw [h']
              exact overwriteOrAppend_ne_nil _ t w

/-- C10: in every state reachable from the empty graph, every adjacency
key maps to a non-empty edge list, and a key for source `s` is present
exactly when some `addEdge` call of the history with source `s` returned
`true` — a registered vertex that never was a successful edge source has
no adjacency entry at all. -/
theorem C10_adjacency_entries (ops : List (Op V W)) (s : V) :
    (∀ e ∈ (run (emptyGraph : Graph V W) ops).adjList, e.2 ≠ []) ∧
    (isKey (run (emptyGraph : Graph V W) ops).adjList s = true ↔
      edgeSuccessFrom (emptyGraph : Graph V W) s ops) := by
  constructor
  · exact nonempty_entries_run ops emptyGraph (by simp [emptyGraph])
  · rw [isKey_run]
    simp [isKey, emptyGraph, alistFind]

end GraphModel
